import Mathlib

/-!
Verification of the segment-decision engine of a video silence-trimming tool.

Times are modelled as exact rationals (`ℚ`).  Each definition below is a
shallow embedding of one function of the source:

* `invertSegments`   — `VideoProcessor._invert_segments`
* `mergeSegments`    — `VideoProcessor._merge_segments`
* `detectKeepSegments` — mode dispatch of `VideoProcessor._detect_keep_segments`
* `countRemovedSegments` — `VideoProcessor._count_removed_segments`
* `reportRows` / `generateTimestampReport` — `VideoProcessor.generate_timestamp_report`
* `cutInstructions` / `clipInstructions` — padding loops of
  `FFmpegHandler.cut_video` and `FFmpegHandler.export_clips`
* `cutVideo` — the empty-list guard of `FFmpegHandler.cut_video`
* `getSpeechSegments` — gap-bridging of `WhisperHandler.get_speech_segments`

Python's `sorted` on pairs (lexicographic, stable) is embedded as an
insertion sort `sortPairs`; since the lexicographic order on pairs is a
total antisymmetric order, any correct sort agrees with it extensionally.
-/

/-- Lexicographic order on `(start, end)` pairs, as Python compares tuples. -/
def pairLeB (a b : ℚ × ℚ) : Bool :=
  decide (a.1 < b.1 ∨ (a.1 = b.1 ∧ a.2 ≤ b.2))

/-- Insert a pair into a lexicographically sorted list of pairs. -/
def insertPair (a : ℚ × ℚ) : List (ℚ × ℚ) → List (ℚ × ℚ)
  | [] => [a]
  | b :: rest => if pairLeB a b then a :: b :: rest else b :: insertPair a rest

/-- Embedding of Python's `sorted` on a list of pairs. -/
def sortPairs (l : List (ℚ × ℚ)) : List (ℚ × ℚ) :=
  l.foldr insertPair []

/-- Loop of `_invert_segments`: walk the sorted silence list keeping the running
`last_end` (the code sets `last_end = end` unconditionally), emitting a keep
segment `(last_end, start)` whenever `start > last_end`, and a final segment
`(last_end, total_duration)` when `last_end < total_duration`. -/
def invertGo (lastEnd D : ℚ) : List (ℚ × ℚ) → List (ℚ × ℚ)
  | [] => if lastEnd < D then [(lastEnd, D)] else []
  | (s, e) :: rest =>
      (if s > lastEnd then [(lastEnd, s)] else []) ++ invertGo e D rest

/-- `VideoProcessor._invert_segments`: silence intervals to keep segments. -/
def invertSegments (silenceSegments : List (ℚ × ℚ)) (totalDuration : ℚ) :
    List (ℚ × ℚ) :=
  if silenceSegments.isEmpty then [(0, totalDuration)]
  else invertGo 0 totalDuration (sortPairs silenceSegments)

/-- Inner loop of `_merge_segments`: does the speech interval overlap some
silence interval (with `break` on the first hit)? -/
def overlapsAnySilence (sp : ℚ × ℚ) : List (ℚ × ℚ) → Bool
  | [] => false
  | (ss, se) :: rest =>
      if ¬(sp.2 < ss ∨ sp.1 > se) then true else overlapsAnySilence sp rest

/-- `VideoProcessor._merge_segments`: keep the speech segments that do not
overlap any silence segment. -/
def mergeSegments : List (ℚ × ℚ) → List (ℚ × ℚ) → List (ℚ × ℚ)
  | [], _ => []
  | sp :: rest, silence =>
      if overlapsAnySilence sp silence then mergeSegments rest silence
      else sp :: mergeSegments rest silence

/-- Internal processing-mode name used by the code for silence-only mode. -/
def modeSilenceOnly : String := "ffmpeg"

/-- Internal processing-mode name used by the code for speech-only mode. -/
def modeSpeechOnly : String := "whisper"

/-- Internal processing-mode name used by the code for combined mode. -/
def modeCombined : String := "hybrid"

/-- `VideoProcessor._detect_keep_segments`, with the two detector outputs and
the probed duration abstracted as inputs: mode dispatch between inversion,
direct pass-through of the speech detector, and the combined policy. -/
def detectKeepSegments (mode : String) (silence speech : List (ℚ × ℚ))
    (D : ℚ) : List (ℚ × ℚ) :=
  if mode = modeSilenceOnly then invertSegments silence D
  else if mode = modeSpeechOnly then speech
  else if mode = modeCombined then mergeSegments speech silence
  else []

/-- `VideoProcessor._count_removed_segments`. -/
def countRemovedSegments (keepSegments : List (ℚ × ℚ)) : Nat :=
  if keepSegments.isEmpty then 0 else keepSegments.length - 1

/-- Row action of the CSV timeline report. -/
inductive RAction where
  | kept
  | removed
deriving DecidableEq, Repr

/-- One row of the CSV timeline report, keeping the numeric time range and the
action (the textual rendering of the row is presentation only). -/
structure TRow where
  rStart : ℚ
  rStop : ℚ
  action : RAction
deriving DecidableEq, Repr

/-- Loop of `generate_timestamp_report`: walk sorted segments with `last_end`,
emitting a `REMOVED` row for each gap, a `KEPT` row per segment, and a trailing
`REMOVED` row when `last_end < total_duration`. -/
def reportRows (lastEnd D : ℚ) : List (ℚ × ℚ) → List TRow
  | [] => if lastEnd < D then [⟨lastEnd, D, RAction.removed⟩] else []
  | (s, e) :: rest =>
      (if s > lastEnd then [⟨lastEnd, s, RAction.removed⟩] else []) ++
        (⟨s, e, RAction.kept⟩ :: reportRows e D rest)

/-- `VideoProcessor.generate_timestamp_report`, as the list of rows written. -/
def generateTimestampReport (segments : List (ℚ × ℚ)) (totalDuration : ℚ) :
    List TRow :=
  reportRows 0 totalDuration (sortPairs segments)

/-- Padding loop of `FFmpegHandler.cut_video`: one `(paddedStart, paddedEnd)`
entry per keep segment, in order. -/
def cutInstructions (padding : ℚ) : List (ℚ × ℚ) → List (ℚ × ℚ)
  | [] => []
  | (s, e) :: rest =>
      (max 0 (s - padding), e + padding) :: cutInstructions padding rest

/-- Padding loop of `FFmpegHandler.export_clips`: one `(paddedStart, duration)`
entry per segment, in order. -/
def clipInstructions (padding : ℚ) : List (ℚ × ℚ) → List (ℚ × ℚ)
  | [] => []
  | (s, e) :: rest =>
      (max 0 (s - padding), (e + padding) - max 0 (s - padding)) ::
        clipInstructions padding rest

/-- Error message used both by `cut_video` and by `process_video` when the keep
list is empty. -/
def noSegmentsMsg : String := "No segments to keep"

/-- `FFmpegHandler.cut_video` up to the external invocation: an empty segment
list is refused before any instruction is built; otherwise the built
instruction list is handed to the transcoder. -/
def cutVideo (keepSegments : List (ℚ × ℚ)) (padding : ℚ) :
    Except String (List (ℚ × ℚ)) :=
  if keepSegments.isEmpty then Except.error noSegmentsMsg
  else Except.ok (cutInstructions padding keepSegments)

/-- Guard of `VideoProcessor.process_video`: an empty keep list becomes a
per-file error before any export step runs. -/
def processVideoGuard (keepSegments : List (ℚ × ℚ)) :
    Except String (List (ℚ × ℚ)) :=
  if keepSegments.isEmpty then Except.error noSegmentsMsg
  else Except.ok keepSegments

/-- Loop of `WhisperHandler.get_speech_segments` with a current span
`(cs, ce)` open: a raw span starting within `min_gap` of `ce` is merged by
overwriting `ce` with its end; otherwise the current span is flushed and a new
one opened. -/
def bridgeGo (cs ce g : ℚ) : List (ℚ × ℚ) → List (ℚ × ℚ)
  | [] => [(cs, ce)]
  | (s, e) :: rest =>
      if s - ce ≤ g then bridgeGo cs e g rest
      else (cs, ce) :: bridgeGo s e g rest

/-- `WhisperHandler.get_speech_segments`: gap-bridging of raw transcription
spans under threshold `g` (`min_gap`). -/
def getSpeechSegments (raw : List (ℚ × ℚ)) (g : ℚ) : List (ℚ × ℚ) :=
  match raw with
  | [] => []
  | (s, e) :: rest => bridgeGo s e g rest

/-! ### Interval chains and covered time points -/

/-- `ChainFrom l D ivs`: the intervals `ivs` are well-formed (`start ≤ end`),
sorted, pairwise disjoint (touching allowed), the first starts at or after `l`,
and the last ends at or before `D`. -/
def ChainFrom (l D : ℚ) : List (ℚ × ℚ) → Prop
  | [] => l ≤ D
  | (s, e) :: rest => l ≤ s ∧ s ≤ e ∧ ChainFrom e D rest

/-- A time point `t` lies in one of the intervals, taken half-open `[s, e)`. -/
def covered (l : List (ℚ × ℚ)) (t : ℚ) : Prop :=
  ∃ p ∈ l, p.1 ≤ t ∧ t < p.2

theorem covered_nil (t : ℚ) : ¬ covered [] t := by
  simp [covered]

theorem covered_cons {p : ℚ × ℚ} {l : List (ℚ × ℚ)} {t : ℚ} :
    covered (p :: l) t ↔ (p.1 ≤ t ∧ t < p.2) ∨ covered l t := by
  simp [covered]

theorem covered_append {l₁ l₂ : List (ℚ × ℚ)} {t : ℚ} :
    covered (l₁ ++ l₂) t ↔ covered l₁ t ∨ covered l₂ t := by
  simp [covered, or_and_right, exists_or]

theorem chainFrom_le {D : ℚ} :
    ∀ {ivs : List (ℚ × ℚ)} {l : ℚ}, ChainFrom l D ivs → l ≤ D
  | [], _, h => h
  | (s, e) :: rest, l, h => by
      obtain ⟨h1, h2, h3⟩ := h
      have := chainFrom_le h3
      linarith

theorem chainFrom_starts {D : ℚ} :
    ∀ {ivs : List (ℚ × ℚ)} {l : ℚ}, ChainFrom l D ivs →
      ∀ p ∈ ivs, l ≤ p.1 ∧ p.1 ≤ p.2
  | [], _, _, p, hp => by cases hp
  | (s, e) :: rest, l, h, p, hp => by
      obtain ⟨h1, h2, h3⟩ := h
      rcases List.mem_cons.mp hp with rfl | hp'
      · exact ⟨h1, h2⟩
      · have := chainFrom_starts h3 p hp'
        exact ⟨by linarith [this.1], this.2⟩

/-- A chain is lexicographically pairwise sorted. -/
theorem chainFrom_pairwise {D : ℚ} :
    ∀ {ivs : List (ℚ × ℚ)} {l : ℚ}, ChainFrom l D ivs →
      ivs.Pairwise (fun a b => pairLeB a b = true)
  | [], _, _ => List.Pairwise.nil
  | (s, e) :: rest, l, h => by
      obtain ⟨h1, h2, h3⟩ := h
      refine List.Pairwise.cons ?_ (chainFrom_pairwise h3)
      intro p hp
      have hst := chainFrom_starts h3 p hp
      simp only [pairLeB, decide_eq_true_eq]
      rcases lt_or_eq_of_le (show s ≤ p.1 by linarith [hst.1]) with hlt | heq
      · exact Or.inl hlt
      · right
        refine ⟨heq, ?_⟩
        have : e ≤ p.1 := hst.1
        have : p.1 ≤ p.2 := hst.2
        linarith [heq ▸ h2]

theorem insertPair_sorted_head {a b : ℚ × ℚ} {rest : List (ℚ × ℚ)}
    (hab : pairLeB a b = true) : insertPair a (b :: rest) = a :: b :: rest := by
  simp [insertPair, hab]

/-- Sorting a list that is already sorted leaves it unchanged. -/
theorem sortPairs_eq_self :
    ∀ {ivs : List (ℚ × ℚ)}, ivs.Pairwise (fun a b => pairLeB a b = true) →
      sortPairs ivs = ivs
  | [], _ => rfl
  | a :: rest, h => by
      obtain ⟨hhead, htail⟩ := List.pairwise_cons.mp h
      have ih := sortPairs_eq_self htail
      simp only [sortPairs, List.foldr] at ih ⊢
      rw [ih]
      cases rest with
      | nil => rfl
      | cons b rest' => exact insertPair_sorted_head (hhead b (List.mem_cons_self b rest'))

/-- Coverage of the inversion walk: starting from `lastEnd = l`, the keep
segments it emits and the silence chain it walks cover, together and without
overlap, exactly the half-open span `[l, D)`. -/
theorem invertGo_cover {D : ℚ} :
    ∀ {sil : List (ℚ × ℚ)} {l : ℚ}, ChainFrom l D sil → ∀ t : ℚ,
      ((covered (invertGo l D sil) t ∨ covered sil t) ↔ (l ≤ t ∧ t < D)) ∧
      ¬(covered (invertGo l D sil) t ∧ covered sil t)
  | [], l, h, t => by
      by_cases hl : l < D
      · simp [invertGo, hl, covered]
      · simp only [invertGo, if_neg hl]
        constructor
        · constructor
          · rintro (hc | hc) <;> exact absurd hc (covered_nil t)
          · rintro ⟨hlt, htD⟩
            exact absurd (lt_of_le_of_lt hlt htD) hl
        · rintro ⟨hc, _⟩
          exact covered_nil t hc
  | (s, e) :: rest, l, h, t => by
      obtain ⟨h1, h2, h3⟩ := h
      have hD : e ≤ D := chainFrom_le h3
      have IH := invertGo_cover h3 t
      have hA : covered (invertGo e D rest) t → e ≤ t ∧ t < D :=
        fun a => IH.1.mp (Or.inl a)
      have hB : covered rest t → e ≤ t ∧ t < D :=
        fun b => IH.1.mp (Or.inr b)
      by_cases hls : l < s
      · have hrw : invertGo l D ((s, e) :: rest) = (l, s) :: invertGo e D rest := by
          simp [invertGo, hls]
        rw [hrw]
        constructor
        · constructor
          · rintro (hk | hv)
            · rcases covered_cons.mp hk with ⟨hlt, hts⟩ | hA'
              · exact ⟨hlt, by linarith⟩
              · have := hA hA'
                exact ⟨by linarith [this.1], this.2⟩
            · rcases covered_cons.mp hv with ⟨hst, hte⟩ | hB'
              · exact ⟨by linarith, by linarith⟩
              · have := hB hB'
                exact ⟨by linarith [this.1], this.2⟩
          · rintro ⟨hlt, htD⟩
            rcases lt_or_le t s with hts | hst
            · exact Or.inl (covered_cons.mpr (Or.inl ⟨hlt, hts⟩))
            · rcases lt_or_le t e with hte | het
              · exact Or.inr (covered_cons.mpr (Or.inl ⟨hst, hte⟩))
              · rcases IH.1.mpr ⟨het, htD⟩ with hA' | hB'
                · exact Or.inl (covered_cons.mpr (Or.inr hA'))
                · exact Or.inr (covered_cons.mpr (Or.inr hB'))
        · rintro ⟨hk, hv⟩
          rcases covered_cons.mp hk with ⟨hlt, hts⟩ | hA'
          · rcases covered_cons.mp hv with ⟨hst, _⟩ | hB'
            · linarith
            · have := hB hB'
              linarith [this.1]
          · rcases covered_cons.mp hv with ⟨hst, hte⟩ | hB'
            · have := hA hA'
              linarith [this.1]
            · exact IH.2 ⟨hA', hB'⟩
      · have hle : l = s := le_antisymm h1 (le_of_not_lt hls)
        have hrw : invertGo l D ((s, e) :: rest) = invertGo e D rest := by
          simp [invertGo, hls]
        rw [hrw]
        constructor
        · constructor
          · rintro (hA' | hv)
            · have := hA hA'
              exact ⟨by linarith [this.1], this.2⟩
            · rcases covered_cons.mp hv with ⟨hst, hte⟩ | hB'
              · exact ⟨by linarith, by linarith⟩
              · have := hB hB'
                exact ⟨by linarith [this.1], this.2⟩
          · rintro ⟨hlt, htD⟩
            rcases lt_or_le t e with hte | het
            · exact Or.inr (covered_cons.mpr (Or.inl ⟨hle ▸ hlt, hte⟩))
            · rcases IH.1.mpr ⟨het, htD⟩ with hA' | hB'
              · exact Or.inl hA'
              · exact Or.inr (covered_cons.mpr (Or.inr hB'))
        · rintro ⟨hA', hv⟩
          rcases covered_cons.mp hv with ⟨hst, hte⟩ | hB'
          · have := hA hA'
            linarith [this.1]
          · exact IH.2 ⟨hA', hB'⟩

/-- Walk of the spec's words for `silence_only` inversion: identical to
`invertGo` except that `last_end` is updated to `max last_end e`, never moving
backward.  Kept separate from `invertGo` (the code's walk) for comparison. -/
def invertGoMax (lastEnd D : ℚ) : List (ℚ × ℚ) → List (ℚ × ℚ)
  | [] => if lastEnd < D then [(lastEnd, D)] else []
  | (s, e) :: rest =>
      (if s > lastEnd then [(lastEnd, s)] else []) ++ invertGoMax (max lastEnd e) D rest

/-- `silence_only` inversion as the spec words it, with the defensive
`last_end = max(last_end, e)` update. -/
def invertSegmentsSpecMax (silenceSegments : List (ℚ × ℚ)) (totalDuration : ℚ) :
    List (ℚ × ℚ) :=
  if silenceSegments.isEmpty then [(0, totalDuration)]
  else invertGoMax 0 totalDuration (sortPairs silenceSegments)

/-- C1: the code's inversion walk does not track `max(last_end, e)`.  On the
nested silence list `[(0,100),(1,2)]` with duration `10`, the code resets
`last_end` from `100` back to `2` and emits the keep segment `(2,10)` — a
segment lying inside the silence interval `(0,100)` — whereas the walk the
claim describes (with the defensive `max`) emits no keep segment at all. -/
theorem invert_lastEnd_not_max_at_nested_input :
    invertSegments [((0 : ℚ), 100), (1, 2)] 10 = [((2 : ℚ), 10)] ∧
    invertSegmentsSpecMax [((0 : ℚ), 100), (1, 2)] 10 = [] ∧
    covered [((0 : ℚ), 100), (1, 2)] 5 ∧
    covered (invertSegments [((0 : ℚ), 100), (1, 2)] 10) 5 := by
  refine ⟨?_, ?_, ?_, ?_⟩ <;>
    norm_num [invertSegments, invertSegmentsSpecMax, invertGo, invertGoMax,
      sortPairs, insertPair, pairLeB, covered]

/-- C4: for a sorted list of pairwise-disjoint well-formed silence intervals
contained in `[0, D]`, the `silence_only` keep segments and the silence
intervals together cover (as half-open spans of seconds) exactly `[0, D)`,
and no time point is covered by both. -/
theorem silence_inversion_round_trip (sil : List (ℚ × ℚ)) (D t : ℚ)
    (h : ChainFrom 0 D sil) :
    ((covered (invertSegments sil D) t ∨ covered sil t) ↔ (0 ≤ t ∧ t < D)) ∧
    ¬(covered (invertSegments sil D) t ∧ covered sil t) := by
  cases sil with
  | nil =>
      have hrw : invertSegments [] D = [(0, D)] := rfl
      rw [hrw]
      constructor
      · constructor
        · rintro (hc | hc)
          · rcases covered_cons.mp hc with ⟨h0, hD⟩ | hc'
            · exact ⟨h0, hD⟩
            · exact absurd hc' (covered_nil t)
          · exact absurd hc (covered_nil t)
        · rintro ⟨h0, hD⟩
          exact Or.inl (covered_cons.mpr (Or.inl ⟨h0, hD⟩))
      · rintro ⟨_, hc⟩
        exact covered_nil t hc
  | cons a rest =>
      have hs : sortPairs (a :: rest) = a :: rest :=
        sortPairs_eq_self (chainFrom_pairwise h)
      have hrw : invertSegments (a :: rest) D = invertGo 0 D (a :: rest) := by
        simp [invertSegments, hs]
      rw [hrw]
      exact invertGo_cover h t

/-- Witness for C4 at the spec's own example. -/
theorem silence_inversion_round_trip_witness :
    ChainFrom 0 60 [((10 : ℚ), 15), (40, 42)] ∧
    (((covered (invertSegments [((10 : ℚ), 15), (40, 42)] 60) 20 ∨
        covered [((10 : ℚ), 15), (40, 42)] 20) ↔ ((0 : ℚ) ≤ 20 ∧ (20 : ℚ) < 60)) ∧
      ¬(covered (invertSegments [((10 : ℚ), 15), (40, 42)] 60) 20 ∧
        covered [((10 : ℚ), 15), (40, 42)] 20)) :=
  ⟨by norm_num [ChainFrom],
    silence_inversion_round_trip [((10 : ℚ), 15), (40, 42)] 60 20 (by norm_num [ChainFrom])⟩

/-- C6: with `total_duration = 0` and no silence detected, the reconciler does
not return the empty list: it returns the degenerate keep segment `(0, 0)`,
both through `_invert_segments` directly and through the `silence_only` mode
dispatch. -/
theorem invert_zero_duration_not_empty :
    invertSegments [] 0 = [((0 : ℚ), 0)] ∧
    invertSegments [] 0 ≠ [] ∧
    detectKeepSegments modeSilenceOnly [] [] 0 = [((0 : ℚ), 0)] := by
  refine ⟨rfl, ?_, ?_⟩
  · simp [invertSegments]
  · simp [detectKeepSegments, invertSegments]

/-- The spec's overlap test: speech `(s₁, e₁)` and silence `(s₂, e₂)` overlap
unless `e₁ < s₂` or `s₁ > e₂` (touching endpoints count as overlap). -/
def speechSilenceOverlap (sp sil : ℚ × ℚ) : Prop :=
  ¬(sp.2 < sil.1 ∨ sp.1 > sil.2)

/-- Combined policy as the spec words it: the subsequence of speech intervals,
in their original order, that overlap no silence interval. -/
def combinedSpec (speech silence : List (ℚ × ℚ)) : List (ℚ × ℚ) :=
  speech.filter (fun sp => silence.all (fun sil => decide (sp.2 < sil.1 ∨ sp.1 > sil.2)))

theorem overlapsAnySilence_eq (sp : ℚ × ℚ) :
    ∀ silence : List (ℚ × ℚ),
      overlapsAnySilence sp silence =
        !(silence.all (fun sil => decide (sp.2 < sil.1 ∨ sp.1 > sil.2)))
  | [] => rfl
  | (ss, se) :: rest => by
      by_cases hc : sp.2 < ss ∨ sp.1 > se
      · simp only [overlapsAnySilence, if_neg (not_not_intro hc), List.all_cons,
          decide_eq_true hc, Bool.true_and]
        exact overlapsAnySilence_eq sp rest
      · simp only [overlapsAnySilence, if_pos hc, List.all_cons,
          decide_eq_false hc]
        simp

/-- C2: the combined (hybrid) policy returns exactly the subsequence of the
speech intervals, in their original order, that overlap no silence interval
under the touching-inclusive test; every overlapping speech interval is
dropped whole (the output is a sublist of the input speech list, so no
interval is ever clipped). -/
theorem combined_mode_is_overlap_filter (speech silence : List (ℚ × ℚ)) :
    mergeSegments speech silence = combinedSpec speech silence ∧
    (mergeSegments speech silence).Sublist speech ∧
    ∀ sp ∈ speech, ∀ sil ∈ silence, speechSilenceOverlap sp sil →
      sp ∉ mergeSegments speech silence := by
  have h1 : mergeSegments speech silence = combinedSpec speech silence := by
    induction speech with
    | nil => rfl
    | cons sp rest ih =>
        simp only [mergeSegments, combinedSpec, List.filter_cons,
          overlapsAnySilence_eq] at ih ⊢
        cases hall : silence.all (fun sil => decide (sp.2 < sil.1 ∨ sp.1 > sil.2)) with
        | true => simp [hall, ih]
        | false => simp [hall, ih]
  refine ⟨h1, ?_, ?_⟩
  · rw [h1]
    exact List.filter_sublist speech
  · intro sp hsp sil hsil hov hmem
    rw [h1] at hmem
    have hall := List.of_mem_filter hmem
    have := List.all_eq_true.mp hall sil hsil
    exact hov (of_decide_eq_true this)

/-- C3: in `speech_only` mode the reconciler returns the speech detector's
list unchanged — no re-sort, no validation.  At the unsorted, overlapping
detector output `[(5,6),(0,10)]` the returned keep list is exactly that list,
and it is not sorted ascending by start. -/
theorem speech_only_mode_no_resort :
    detectKeepSegments modeSpeechOnly [] [((5 : ℚ), 6), (0, 10)] 100 =
      [((5 : ℚ), 6), (0, 10)] ∧
    ¬ List.Pairwise (fun a b : ℚ × ℚ => a.1 ≤ b.1) [((5 : ℚ), 6), (0, 10)] := by
  constructor
  · rfl
  · intro h
    have := (List.pairwise_cons.mp h).1 (0, 10) (List.mem_cons_self _ _)
    norm_num at this

/-- `RowChain t D rows`: the rows' `(start, stop)` ranges tile the span from
`t` to `D` contiguously — the first row starts at `t`, each row is well-formed
and ends where the next begins, and the last row ends at `D` (an empty row
list is a valid tiling only of the empty span `t = D`).  This is exactly
"sorted, contiguous, no gap, no overlap" for a partition of `[t, D]`. -/
def RowChain (t D : ℚ) : List TRow → Prop
  | [] => t = D
  | r :: rest => r.rStart = t ∧ r.rStart ≤ r.rStop ∧ RowChain r.rStop D rest

/-- No two adjacent rows are both `REMOVED`. -/
def NoAdjRemoved : List TRow → Prop
  | [] => True
  | [_] => True
  | a :: b :: rest =>
      ¬(a.action = RAction.removed ∧ b.action = RAction.removed) ∧
        NoAdjRemoved (b :: rest)

/-- The `(start, stop)` ranges of the `KEPT` rows, in order. -/
def keptOf : List TRow → List (ℚ × ℚ)
  | [] => []
  | r :: rest =>
      if r.action = RAction.kept then (r.rStart, r.rStop) :: keptOf rest
      else keptOf rest

/-- Total duration of a list of intervals. -/
def sumDur (l : List (ℚ × ℚ)) : ℚ :=
  (l.map (fun p => p.2 - p.1)).sum

theorem reportRows_chain {D : ℚ} :
    ∀ {segs : List (ℚ × ℚ)} {l : ℚ}, ChainFrom l D segs →
      RowChain l D (reportRows l D segs)
  | [], l, h => by
      by_cases hl : l < D
      · simp [reportRows, hl, RowChain]
        exact le_of_lt hl
      · have hld : l = D := le_antisymm h (le_of_not_lt hl)
        simp [reportRows, hl, RowChain, hld]
  | (s, e) :: rest, l, h => by
      obtain ⟨h1, h2, h3⟩ := h
      have IH := reportRows_chain h3
      by_cases hls : l < s
      · simp only [reportRows, if_pos hls, List.cons_append, List.nil_append]
        exact ⟨rfl, le_of_lt hls, rfl, h2, IH⟩
      · have hle : s = l := le_antisymm (le_of_not_lt hls) h1
        simp only [reportRows, if_neg hls, List.nil_append]
        exact ⟨hle, h2, IH⟩

theorem reportRows_kept {D : ℚ} :
    ∀ (segs : List (ℚ × ℚ)) (l : ℚ), keptOf (reportRows l D segs) = segs
  | [], l => by
      by_cases hl : l < D <;> simp [reportRows, hl, keptOf]
  | (s, e) :: rest, l => by
      by_cases hls : l < s <;>
        simp [reportRows, hls, keptOf, reportRows_kept rest e]

theorem noAdjRemoved_cons_kept {r : TRow} {rows : List TRow}
    (hk : r.action = RAction.kept) (h : NoAdjRemoved rows) :
    NoAdjRemoved (r :: rows) := by
  cases rows with
  | nil => trivial
  | cons b rest =>
      refine ⟨fun hc => ?_, h⟩
      rw [hk] at hc
      exact absurd hc.1 (by simp)

theorem reportRows_noAdj (D : ℚ) :
    ∀ (segs : List (ℚ × ℚ)) (l : ℚ), NoAdjRemoved (reportRows l D segs)
  | [], l => by
      by_cases hl : l < D <;> simp [reportRows, hl, NoAdjRemoved]
  | (s, e) :: rest, l => by
      have IH := reportRows_noAdj D rest e
      have hk : NoAdjRemoved (⟨s, e, RAction.kept⟩ :: reportRows e D rest) :=
        noAdjRemoved_cons_kept rfl IH
      by_cases hls : l < s
      · simp only [reportRows, if_pos hls, List.cons_append, List.nil_append]
        refine ⟨fun hc => ?_, hk⟩
        exact absurd hc.2 (by simp)
      · simp only [reportRows, if_neg hls, List.nil_append]
        exact hk

/-- C5 (amended): for a well-formed, sorted, non-overlapping keep list
contained in `[0, D]`, the report's rows tile `[0, D]` contiguously with no
gap and no overlap; no two `REMOVED` rows are adjacent (two `KEPT` rows may
touch when consecutive segments touch); the `KEPT` rows are exactly the input
segments in order, so the sum of `KEPT` durations equals the sum of the input
keep-segment durations. -/
theorem report_partitions_duration (segs : List (ℚ × ℚ)) (D : ℚ)
    (h : ChainFrom 0 D segs) :
    RowChain 0 D (generateTimestampReport segs D) ∧
    NoAdjRemoved (generateTimestampReport segs D) ∧
    keptOf (generateTimestampReport segs D) = segs ∧
    sumDur (keptOf (generateTimestampReport segs D)) = sumDur segs := by
  have hs : sortPairs segs = segs := sortPairs_eq_self (chainFrom_pairwise h)
  have hrw : generateTimestampReport segs D = reportRows 0 D segs := by
    simp [generateTimestampReport, hs]
  rw [hrw]
  exact ⟨reportRows_chain h, reportRows_noAdj D segs 0, reportRows_kept segs 0,
    by rw [reportRows_kept segs 0]⟩

/-- Witness for C5 at the spec's example `keep = [(0,10),(15,40)]`, `D = 60`. -/
theorem report_partitions_duration_witness :
    ChainFrom 0 60 [((0 : ℚ), 10), (15, 40)] ∧
    (RowChain 0 60 (generateTimestampReport [((0 : ℚ), 10), (15, 40)] 60) ∧
      NoAdjRemoved (generateTimestampReport [((0 : ℚ), 10), (15, 40)] 60) ∧
      keptOf (generateTimestampReport [((0 : ℚ), 10), (15, 40)] 60) =
        [((0 : ℚ), 10), (15, 40)] ∧
      sumDur (keptOf (generateTimestampReport [((0 : ℚ), 10), (15, 40)] 60)) =
        sumDur [((0 : ℚ), 10), (15, 40)]) :=
  ⟨by norm_num [ChainFrom],
    report_partitions_duration [((0 : ℚ), 10), (15, 40)] 60 (by norm_num [ChainFrom])⟩

/-- C5 counterexample to the claim as stated: with the touching keep segments
`[(0,2),(2,4)]` and `D = 4` the report's rows are `KEPT, KEPT` — not
alternating `REMOVED`/`KEPT`; and with a keep segment `(0,5)` extending past
`D = 3` the rows do not tile `[0, 3]`. -/
theorem report_alternation_fails :
    (generateTimestampReport [((0 : ℚ), 2), (2, 4)] 4).map TRow.action =
      [RAction.kept, RAction.kept] ∧
    ¬ RowChain 0 3 (generateTimestampReport [((0 : ℚ), 5)] 3) := by
  constructor
  · norm_num [generateTimestampReport, reportRows, sortPairs, insertPair, pairLeB]
  · intro h
    have hrw2 : generateTimestampReport [((0 : ℚ), 5)] 3 =
        [⟨0, 5, RAction.kept⟩] := by
      norm_num [generateTimestampReport, reportRows, sortPairs, insertPair, pairLeB]
    rw [hrw2] at h
    norm_num [RowChain] at h

theorem cutInstructions_eq_map (p : ℚ) :
    ∀ segs : List (ℚ × ℚ),
      cutInstructions p segs = segs.map (fun q => (max 0 (q.1 - p), q.2 + p))
  | [] => rfl
  | (s, e) :: rest => by
      simp [cutInstructions, cutInstructions_eq_map p rest]

theorem clipInstructions_eq_map (p : ℚ) :
    ∀ segs : List (ℚ × ℚ),
      clipInstructions p segs =
        segs.map (fun q => (max 0 (q.1 - p), (q.2 + p) - max 0 (q.1 - p)))
  | [] => rfl
  | (s, e) :: rest => by
      simp [clipInstructions, clipInstructions_eq_map p rest]

/-- C7: the cut planner emits exactly one instruction per keep segment, in the
original order: the merged-output instruction for `(s, e)` is
`(max 0 (s − p), e + p)` — start clamped at `0`, end unclamped against the
total duration — and the per-clip instruction is
`(paddedStart, (e + p) − paddedStart)`.  No emitted start is ever negative. -/
theorem planner_padding_clamp (segs : List (ℚ × ℚ)) (p : ℚ) :
    cutInstructions p segs = segs.map (fun q => (max 0 (q.1 - p), q.2 + p)) ∧
    clipInstructions p segs =
      segs.map (fun q => (max 0 (q.1 - p), (q.2 + p) - max 0 (q.1 - p))) ∧
    (∀ ins ∈ cutInstructions p segs, 0 ≤ ins.1) ∧
    (∀ ins ∈ clipInstructions p segs, 0 ≤ ins.1) := by
  refine ⟨cutInstructions_eq_map p segs, clipInstructions_eq_map p segs, ?_, ?_⟩
  · rw [cutInstructions_eq_map]
    intro ins hins
    rcases List.mem_map.mp hins with ⟨q, _, rfl⟩
    exact le_max_left 0 _
  · rw [clipInstructions_eq_map]
    intro ins hins
    rcases List.mem_map.mp hins with ⟨q, _, rfl⟩
    exact le_max_left 0 _

/-- C8: an empty keep-segment list is refused before any transcoder
instruction is built: `cut_video` reports "No segments to keep" instead of
producing instructions, and `process_video`'s guard turns the empty keep list
into a per-file error before any export step runs. -/
theorem empty_keep_list_refused (p : ℚ) :
    cutVideo [] p = Except.error noSegmentsMsg ∧
    processVideoGuard [] = Except.error noSegmentsMsg :=
  ⟨rfl, rfl⟩

/-- C10: `segments_removed` counts exactly the interior gaps between
consecutive kept segments — `length − 1` for a non-empty keep list, `0` for an
empty one — ignoring removed footage before the first or after the last kept
segment. -/
theorem count_removed_interior_gaps (segs : List (ℚ × ℚ)) :
    countRemovedSegments segs = (if segs.isEmpty then 0 else segs.length - 1) ∧
    countRemovedSegments segs = (segs.zip segs.tail).length := by
  refine ⟨rfl, ?_⟩
  cases segs with
  | nil => rfl
  | cons a rest =>
      simp only [countRemovedSegments, List.isEmpty_cons, List.length_cons,
        List.tail_cons, List.length_zip, Bool.false_eq_true, if_false]
      omega

/-- Consecutive intervals are separated by a gap strictly greater than `g`. -/
def GapsGT (g : ℚ) : List (ℚ × ℚ) → Prop
  | [] => True
  | [_] => True
  | a :: b :: rest => g < b.1 - a.2 ∧ GapsGT g (b :: rest)

/-- Raw spans appear in transcript order: both starts and ends nondecreasing. -/
def MonoSpans (l : List (ℚ × ℚ)) : Prop :=
  l.Pairwise (fun a b => a.1 ≤ b.1 ∧ a.2 ≤ b.2)

theorem bridgeGo_head_gaps (g : ℚ) :
    ∀ (rest : List (ℚ × ℚ)) (cs ce : ℚ),
      (∃ ce2 tl, bridgeGo cs ce g rest = (cs, ce2) :: tl) ∧
      GapsGT g (bridgeGo cs ce g rest)
  | [], cs, ce => ⟨⟨ce, [], rfl⟩, trivial⟩
  | (s, e) :: rest', cs, ce => by
      by_cases hm : s - ce ≤ g
      · simp only [bridgeGo, if_pos hm]
        exact bridgeGo_head_gaps g rest' cs e
      · obtain ⟨⟨ce2, tl, heq⟩, hgaps⟩ := bridgeGo_head_gaps g rest' s e
        simp only [bridgeGo, if_neg hm]
        refine ⟨⟨ce, bridgeGo s e g rest', rfl⟩, ?_⟩
        rw [heq]
        exact ⟨lt_of_not_le hm, heq ▸ hgaps⟩

theorem bridgeGo_contains (g : ℚ) :
    ∀ (rest : List (ℚ × ℚ)) (cs ce : ℚ),
      (∀ x ∈ rest, cs ≤ x.1 ∧ ce ≤ x.2) → MonoSpans rest →
      (∃ o ∈ bridgeGo cs ce g rest, o.1 ≤ cs ∧ ce ≤ o.2) ∧
      (∀ sp ∈ rest, ∃ o ∈ bridgeGo cs ce g rest, o.1 ≤ sp.1 ∧ sp.2 ≤ o.2)
  | [], cs, ce, _, _ =>
      ⟨⟨(cs, ce), by simp [bridgeGo], le_refl cs, le_refl ce⟩, by simp⟩
  | (s, e) :: rest', cs, ce, hd, hp => by
      obtain ⟨hhead, hptail⟩ := List.pairwise_cons.mp hp
      have hse := hd (s, e) (List.mem_cons_self _ _)
      by_cases hm : s - ce ≤ g
      · have hd' : ∀ x ∈ rest', cs ≤ x.1 ∧ e ≤ x.2 := by
          intro x hx
          exact ⟨(hd x (List.mem_cons_of_mem _ hx)).1, (hhead x hx).2⟩
        have IH := bridgeGo_contains g rest' cs e hd' hptail
        simp only [bridgeGo, if_pos hm]
        refine ⟨?_, ?_⟩
        · obtain ⟨o, ho, h1, h2⟩ := IH.1
          exact ⟨o, ho, h1, le_trans hse.2 h2⟩
        · intro sp hsp
          rcases List.mem_cons.mp hsp with rfl | hsp'
          · obtain ⟨o, ho, h1, h2⟩ := IH.1
            exact ⟨o, ho, le_trans h1 hse.1, h2⟩
          · exact IH.2 sp hsp'
      · have hd' : ∀ x ∈ rest', s ≤ x.1 ∧ e ≤ x.2 := fun x hx => hhead x hx
        have IH := bridgeGo_contains g rest' s e hd' hptail
        simp only [bridgeGo, if_neg hm]
        refine ⟨⟨(cs, ce), List.mem_cons_self _ _, le_refl _, le_refl _⟩, ?_⟩
        intro sp hsp
        rcases List.mem_cons.mp hsp with rfl | hsp'
        · obtain ⟨o, ho, h1, h2⟩ := IH.1
          exact ⟨o, List.mem_cons_of_mem _ ho, h1, h2⟩
        · obtain ⟨o, ho, h1, h2⟩ := IH.2 sp hsp'
          exact ⟨o, List.mem_cons_of_mem _ ho, h1, h2⟩

/-- C9 (amended): for raw transcription spans in transcript order
(nondecreasing starts and ends), gap-bridging produces intervals whose
consecutive gaps are strictly greater than `min_gap` (so the output is maximal
under the threshold), and every raw span's time range is contained in some
output interval. -/
theorem gap_bridging_maximal (raw : List (ℚ × ℚ)) (g : ℚ)
    (hmono : MonoSpans raw) :
    GapsGT g (getSpeechSegments raw g) ∧
    ∀ sp ∈ raw, ∃ o ∈ getSpeechSegments raw g, o.1 ≤ sp.1 ∧ sp.2 ≤ o.2 := by
  cases raw with
  | nil => exact ⟨trivial, by simp⟩
  | cons a rest =>
      obtain ⟨s, e⟩ := a
      obtain ⟨hhead, htail⟩ := List.pairwise_cons.mp hmono
      have hd : ∀ x ∈ rest, s ≤ x.1 ∧ e ≤ x.2 := fun x hx => hhead x hx
      have hc := bridgeGo_contains g rest s e hd htail
      have hg := bridgeGo_head_gaps g rest s e
      simp only [getSpeechSegments]
      refine ⟨hg.2, ?_⟩
      intro sp hsp
      rcases List.mem_cons.mp hsp with rfl | hsp'
      · exact hc.1
      · exact hc.2 sp hsp'

/-- Witness for C9 on a concrete transcript-ordered raw list. -/
theorem gap_bridging_maximal_witness :
    MonoSpans [((0 : ℚ), 1), (2, 3), (10, 11)] ∧
    (GapsGT 2 (getSpeechSegments [((0 : ℚ), 1), (2, 3), (10, 11)] 2) ∧
      ∀ sp ∈ [((0 : ℚ), 1), (2, 3), (10, 11)],
        ∃ o ∈ getSpeechSegments [((0 : ℚ), 1), (2, 3), (10, 11)] 2,
          o.1 ≤ sp.1 ∧ sp.2 ≤ o.2) :=
  ⟨by norm_num [MonoSpans, List.pairwise_cons],
    gap_bridging_maximal [((0 : ℚ), 1), (2, 3), (10, 11)] 2
      (by norm_num [MonoSpans, List.pairwise_cons])⟩

/-- C9 counterexample to the claim as stated: on the nested raw spans
`[(0,10),(1,2)]` (ends not nondecreasing) with `min_gap = 2`, the bridging
loop overwrites the current end and returns `[(0,2)]`, so the raw span
`(0,10)` is contained in no output interval. -/
theorem gap_bridging_containment_fails :
    getSpeechSegments [((0 : ℚ), 10), (1, 2)] 2 = [((0 : ℚ), 2)] ∧
    ¬ ∃ o ∈ getSpeechSegments [((0 : ℚ), 10), (1, 2)] 2,
        o.1 ≤ (0 : ℚ) ∧ (10 : ℚ) ≤ o.2 := by
  have h : getSpeechSegments [((0 : ℚ), 10), (1, 2)] 2 = [((0 : ℚ), 2)] := by
    norm_num [getSpeechSegments, bridgeGo]
  refine ⟨h, ?_⟩
  rw [h]
  rintro ⟨o, ho, h1, h2⟩
  simp only [List.mem_singleton] at ho
  subst ho
  norm_num at h2
